import Mathlib

/-!
Verification development for the Markdown converter
(`haystack/nodes/file_converter/markdown.py`).

The rendered markup tree produced by the external renderer/parser is
modelled as `MarkupNode` (elements with a tag and children, and text
leaves, mirroring bs4 `Tag`/`NavigableString`).  The heading-aware
flattener `_extract_text_and_headlines`, the regex code-snippet
stripper, and the metadata assembly of `convert` are embedded as
executable Lean functions, and the spec's claims are settled against
them.
-/

namespace MarkdownConv

/-- A node of the rendered markup tree: either an element with a tag
name and an ordered list of children, or a text leaf
(bs4 `NavigableString`). -/
inductive MarkupNode where
  | element (tag : String) (children : List MarkupNode)
  | textLeaf (s : String)
deriving Repr

/-- One heading record produced by the flattener: the Python dict
`{"headline": ..., "start_idx": ..., "level": ...}`. -/
structure HeadingRecord where
  headline : String
  start_idx : Nat
  level : Nat
deriving Repr, DecidableEq

mutual

/-- bs4 `get_text()` on one node: the concatenated text of all its
descendant text leaves (a leaf yields its own string). -/
def getText : MarkupNode → String
  | .textLeaf s => s
  | .element _ cs => getTextList cs

/-- bs4 `get_text()` over a list of sibling nodes, concatenated in
order. -/
def getTextList : List MarkupNode → String
  | [] => ""
  | n :: ns => getText n ++ getTextList ns

end

mutual

/-- The pre-order (document-order) flattening of one node: the node
itself followed by all its descendants, as bs4 `.descendants` visits
them. -/
def preorder : MarkupNode → List MarkupNode
  | .element t cs => .element t cs :: preorderList cs
  | .textLeaf s => [.textLeaf s]

/-- Pre-order flattening of a list of sibling trees. -/
def preorderList : List MarkupNode → List MarkupNode
  | [] => []
  | n :: ns => preorder n ++ preorderList ns

end

/-- The set `headline_tags = {"h1", "h2", "h3", "h4", "h5", "h6"}`. -/
def headlineTags : List String := ["h1", "h2", "h3", "h4", "h5", "h6"]

/-- `int(desc.name[-1]) - 1`: the digit value of the tag's last
character, minus one. -/
def levelOfTag (tag : String) : Nat := (tag.back.toNat - 48) - 1

/-- One iteration of the `for desc in soup.descendants` loop of
`_extract_text_and_headlines`: if the node's tag is a headline tag,
append a heading record (using the text length BEFORE this node's own
text is appended); if the node is a text leaf, append its string to the
accumulator. -/
def step (acc : String × List HeadingRecord) (desc : MarkupNode) :
    String × List HeadingRecord :=
  let text := acc.1
  let headlines := acc.2
  let headlines :=
    match desc with
    | .element tag cs =>
        if tag ∈ headlineTags then
          headlines ++ [⟨getText (.element tag cs), text.length, levelOfTag tag⟩]
        else headlines
    | .textLeaf _ => headlines
  let text :=
    match desc with
    | .textLeaf s => text ++ s
    | .element _ _ => text
  (text, headlines)

/-- `MarkdownConverter._extract_text_and_headlines(soup)`: fold the
loop body over all descendants of the soup (the soup itself is the
list of top-level nodes; `.descendants` is their pre-order
flattening). -/
def _extract_text_and_headlines (soup : List MarkupNode) :
    String × List HeadingRecord :=
  (preorderList soup).foldl step ("", [])

/-- `soup.get_text()`: the direct whole-tree text extraction used by
`convert` when heading extraction is not requested. -/
def soupGetText (soup : List MarkupNode) : String := getTextList soup

/-- Index of the first occurrence of `pat` as a contiguous sublist of
`s` (`none` when there is no occurrence): the leftmost position at
which the regex engine can match the literal pattern. -/
def findSubstr (pat : List Char) (s : List Char) : Option Nat :=
  match s with
  | [] => if pat.isPrefixOf ([] : List Char) then some 0 else none
  | _ :: rest =>
      if pat.isPrefixOf s then some 0
      else (findSubstr pat rest).map (· + 1)

/-- Fuelled worker for `re.sub(openT + "(.*?)" + closeT, " ", s,
flags=re.DOTALL)`: repeatedly find the leftmost opening tag, then the
first closing tag after it (non-greedy `.*?`, any character including
newline in between), and replace the whole matched region with one
space.  If the opening tag or a closing tag after it is missing no
further match exists anywhere, so the rest is returned unchanged.
Fuel `s.length + 1` always suffices because each match consumes at
least the opening tag. -/
def substFuel (openT closeT : List Char) : Nat → List Char → List Char
  | 0, s => s
  | fuel + 1, s =>
      match findSubstr openT s with
      | none => s
      | some i =>
          match findSubstr closeT (s.drop (i + openT.length)) with
          | none => s
          | some j =>
              s.take i ++ [' '] ++
                substFuel openT closeT fuel
                  (s.drop (i + openT.length + j + closeT.length))

/-- `re.sub(openT + "(.*?)" + closeT, " ", s, flags=re.DOTALL)`. -/
def reSub (openT closeT : List Char) (s : List Char) : List Char :=
  substFuel openT closeT (s.length + 1) s

/-- The two substitutions of `convert` when `remove_code_snippets`
holds: first every `<pre>(.*?)</pre>` region, then every
`<code>(.*?)</code>` region, each replaced by a single space. -/
def removeCodeSnippets (html : String) : String :=
  let html : String := ⟨reSub "<pre>".data "</pre>".data html.data⟩
  let html : String := ⟨reSub "<code>".data "</code>".data html.data⟩
  html

/-- A metadata value: Python values stored in the `meta` dict.  Caller
and front-matter values are strings or numbers; `convert` itself stores
a heading-record list under `"headlines"` and a string under
`"filename"`. -/
inductive MetaVal where
  | str (s : String)
  | num (n : Nat)
  | headlineList (hs : List HeadingRecord)
deriving Repr, DecidableEq

/-- A Python dict with string keys, modelled extensionally by its
lookup function. -/
def Dict : Type := String → Option MetaVal

/-- Lookup after `m.update(upd)`: keys of `upd` win, other keys keep
their value in `m`. -/
def dictUpdate (m upd : Dict) : Dict :=
  fun k => match upd k with
    | some v => some v
    | none => m k

/-- Lookup after `m[key] = v`. -/
def dictInsert (m : Dict) (key : String) (v : MetaVal) : Dict :=
  fun k => if k = key then some v else m k

/-- The empty dict `{}`. -/
def emptyDict : Dict := fun _ => none

/-- Lines 104-108 of `convert`: when `add_frontmatter_to_meta` holds,
a missing caller `meta` becomes the front-matter dict, and otherwise
the front-matter is `update`d into the caller dict; when the flag is
off the caller `meta` is untouched. -/
def mergeFrontmatter (meta : Option Dict) (metadata : Dict)
    (add_frontmatter_to_meta : Bool) : Option Dict :=
  if add_frontmatter_to_meta then
    match meta with
    | none => some metadata
    | some m => some (dictUpdate m metadata)
  else meta

/-- A file path, reduced to what `convert` uses: its components.
`file_path.name` is the final component (the base name). -/
structure FPath where
  components : List String
deriving Repr

/-- `pathlib.Path.name`: the final path component (empty for an empty
path). -/
def FPath.name (p : FPath) : String := p.components.getLastD ""

/-- The per-call option values of `convert` after defaulting against
the constructor configuration. -/
structure ConvertOptions where
  remove_code_snippets : Bool
  extract_headlines : Bool
  add_frontmatter_to_meta : Bool
deriving Repr

/-- The pure core of `MarkdownConverter.convert` after the file has
been read: the external collaborators (front-matter split, Markdown
rendering, markup-tree parsing) are passed in as functions, and the
body follows lines 92-124 of the source: front-matter split, render,
optional code stripping, parse, optional front-matter merge, text and
headline extraction, unconditional `filename` assignment.  Returns the
document's `content` and `meta`. -/
def convertCore
    (fmParse : String → Dict × String)
    (mdRender : String → String)
    (parseHtml : String → List MarkupNode)
    (file_path : FPath)
    (fileText : String)
    (opts : ConvertOptions)
    (meta : Option Dict) : String × Dict :=
  let pr := fmParse fileText
  let metadata := pr.1
  let markdown_text := pr.2
  let html := mdRender markdown_text
  let html := if opts.remove_code_snippets then removeCodeSnippets html else html
  let soup := parseHtml html
  let meta := mergeFrontmatter meta metadata opts.add_frontmatter_to_meta
  let tm :=
    if opts.extract_headlines then
      let th := _extract_text_and_headlines soup
      (th.1, some (dictInsert (meta.getD emptyDict) "headlines"
        (.headlineList th.2)))
    else
      (soupGetText soup, meta)
  let text := tm.1
  let meta := tm.2
  let meta :=
    match meta with
    | none => dictInsert emptyDict "filename" (.str file_path.name)
    | some m => dictInsert m "filename" (.str file_path.name)
  (text, meta)

/-- The tag string `hN` of a heading element. -/
def hTag (N : Nat) : String := "h" ++ toString N

/-- A small demonstration soup: a `h1` heading followed by a
paragraph, as rendered from `"# Title\n\nBody text."`. -/
def demoSoup : List MarkupNode :=
  [.element "h1" [.textLeaf "Title"], .element "p" [.textLeaf "Body text."]]

/-- Demonstration caller metadata `{"a": 1}`. -/
def callerDemo : Dict := fun k => if k = "a" then some (.num 1) else none

/-- Demonstration front-matter `{"a": 2, "b": 3}`. -/
def frontmatterDemo : Dict := fun k =>
  if k = "a" then some (.num 2) else if k = "b" then some (.num 3) else none

/-- Demonstration front-matter splitter: front-matter
`{"a": 2, "b": 3}` with the whole input as body. -/
def demoFmParse : String → Dict × String := fun s => (frontmatterDemo, s)

/-- Demonstration Markdown renderer (identity on the body). -/
def demoRender : String → String := fun s => s

/-- Demonstration markup parser, returning the demonstration soup. -/
def demoParse : String → List MarkupNode := fun _ => demoSoup

/-! ### Characterisation of the flattener fold -/

/-- The text contributed by a flat run of descendant nodes: exactly the
concatenation of the text-leaf entries (element entries contribute
nothing of their own). -/
def textOfFlat : List MarkupNode → String
  | [] => ""
  | .textLeaf s :: ds => s ++ textOfFlat ds
  | .element _ _ :: ds => textOfFlat ds

/-- The heading records produced by running the loop body over a flat
run of descendant nodes, starting from accumulated text `t`. -/
def headlinesFrom : String → List MarkupNode → List HeadingRecord
  | _, [] => []
  | t, .element tag cs :: ds =>
      (if tag ∈ headlineTags then
        [⟨getText (.element tag cs), t.length, levelOfTag tag⟩]
      else []) ++ headlinesFrom t ds
  | t, .textLeaf s :: ds => headlinesFrom (t ++ s) ds

theorem foldl_step_eq (ds : List MarkupNode) :
    ∀ (t : String) (hs : List HeadingRecord),
      ds.foldl step (t, hs) = (t ++ textOfFlat ds, hs ++ headlinesFrom t ds) := by
  induction ds with
  | nil => intro t hs; simp [textOfFlat, headlinesFrom]
  | cons d ds ih =>
      intro t hs
      cases d with
      | element tag cs =>
          by_cases htag : tag ∈ headlineTags
          · simp [step, htag, textOfFlat, headlinesFrom, ih]
          · simp [step, htag, textOfFlat, headlinesFrom, ih]
      | textLeaf s =>
          simp [step, textOfFlat, headlinesFrom, ih, String.append_assoc]

theorem extract_eq (soup : List MarkupNode) :
    _extract_text_and_headlines soup =
      (textOfFlat (preorderList soup), headlinesFrom "" (preorderList soup)) := by
  simp [_extract_text_and_headlines, foldl_step_eq, String.empty_append]

theorem headlinesFrom_bounds (ds : List MarkupNode) :
    ∀ (t : String), ∀ r ∈ headlinesFrom t ds,
      t.length ≤ r.start_idx ∧
        r.start_idx ≤ t.length + (textOfFlat ds).length := by
  induction ds with
  | nil => intro t r hr; simp [headlinesFrom] at hr
  | cons d ds ih =>
      intro t r hr
      cases d with
      | element tag cs =>
          simp only [headlinesFrom, List.mem_append] at hr
          rcases hr with hr | hr
          · by_cases htag : tag ∈ headlineTags
            · simp [htag] at hr
              subst hr
              exact ⟨le_refl _, Nat.le_add_right _ _⟩
            · simp [htag] at hr
          · have h := ih t r hr
            simpa [textOfFlat] using h
      | textLeaf s =>
          simp only [headlinesFrom] at hr
          have h := ih (t ++ s) r hr
          rw [String.length_append] at h
          constructor
          · exact le_trans (Nat.le_add_right _ _) h.1
          · have := h.2
            simp only [textOfFlat, String.length_append]
            omega

theorem headlinesFrom_chain (ds : List MarkupNode) :
    ∀ (t : String),
      List.Chain' (fun a b => a.start_idx ≤ b.start_idx) (headlinesFrom t ds) := by
  induction ds with
  | nil => intro t; simp [headlinesFrom]
  | cons d ds ih =>
      intro t
      cases d with
      | element tag cs =>
          by_cases htag : tag ∈ headlineTags
          · simp only [headlinesFrom, htag, if_pos, List.singleton_append]
            refine List.Chain'.cons' (ih t) ?_
            intro y hy
            have hmem : y ∈ headlinesFrom t ds := List.mem_of_mem_head? hy
            exact (headlinesFrom_bounds ds t y hmem).1
          · simpa [headlinesFrom, htag] using ih t
      | textLeaf s => simpa [headlinesFrom] using ih (t ++ s)

theorem textOfFlat_append (xs ys : List MarkupNode) :
    textOfFlat (xs ++ ys) = textOfFlat xs ++ textOfFlat ys := by
  induction xs with
  | nil => simp [textOfFlat, String.empty_append]
  | cons d xs ih =>
      cases d with
      | element tag cs => simpa [textOfFlat] using ih
      | textLeaf s => simp [textOfFlat, ih, String.append_assoc]

theorem headlinesFrom_append (xs : List MarkupNode) :
    ∀ (t : String) (ys : List MarkupNode),
      headlinesFrom t (xs ++ ys) =
        headlinesFrom t xs ++ headlinesFrom (t ++ textOfFlat xs) ys := by
  induction xs with
  | nil => intro t ys; simp [headlinesFrom, textOfFlat, String.append_empty]
  | cons d xs ih =>
      intro t ys
      cases d with
      | element tag cs => simp [headlinesFrom, textOfFlat, ih]
      | textLeaf s =>
          simp [headlinesFrom, textOfFlat, ih, String.append_assoc]

mutual

theorem textOfFlat_preorder (n : MarkupNode) :
    textOfFlat (preorder n) = getText n := by
  cases n with
  | textLeaf s => simp [preorder, textOfFlat, getText, String.append_empty]
  | element tag cs =>
      simpa [preorder, textOfFlat, getText] using textOfFlat_preorderList cs

theorem textOfFlat_preorderList (ns : List MarkupNode) :
    textOfFlat (preorderList ns) = getTextList ns := by
  cases ns with
  | nil => simp [preorderList, textOfFlat, getTextList]
  | cons n ns =>
      rw [preorderList, textOfFlat_append, textOfFlat_preorder n,
        textOfFlat_preorderList ns, getTextList]

end

theorem strLength_data (s : String) : s.length = s.data.length := rfl

mutual

theorem headline_substr_preorder (n : MarkupNode) :
    ∀ (t w : String) (r : HeadingRecord), r ∈ headlinesFrom t (preorder n) →
      ((t ++ getText n ++ w).data.drop r.start_idx).take r.headline.data.length
        = r.headline.data := by
  cases n with
  | textLeaf s =>
      intro t w r hr
      simp [preorder, headlinesFrom] at hr
  | element tag cs =>
      intro t w r hr
      rw [preorder] at hr
      simp only [headlinesFrom, List.mem_append] at hr
      rcases hr with hr | hr
      · by_cases htag : tag ∈ headlineTags
        · simp only [htag, if_pos, List.mem_singleton] at hr
          subst hr
          simp only [String.data_append, List.append_assoc, strLength_data]
          rw [List.drop_left, List.take_left]
        · simp [htag] at hr
      · have h := headline_substr_preorderList cs t w r hr
        simpa [getText] using h

theorem headline_substr_preorderList (ns : List MarkupNode) :
    ∀ (t w : String) (r : HeadingRecord), r ∈ headlinesFrom t (preorderList ns) →
      ((t ++ getTextList ns ++ w).data.drop r.start_idx).take r.headline.data.length
        = r.headline.data := by
  cases ns with
  | nil =>
      intro t w r hr
      simp [preorderList, headlinesFrom] at hr
  | cons n ns =>
      intro t w r hr
      rw [preorderList, headlinesFrom_append, textOfFlat_preorder] at hr
      rcases List.mem_append.mp hr with hr | hr
      · have h := headline_substr_preorder n t (getTextList ns ++ w) r hr
        simpa [getTextList, String.append_assoc] using h
      · have h := headline_substr_preorderList ns (t ++ getText n) w r hr
        simpa [getTextList, String.append_assoc] using h

end

/-! ### Facts about the code-snippet stripper -/

theorem findSubstr_some (pat : List Char) :
    ∀ (s : List Char) (i : Nat), findSubstr pat s = some i →
      pat.isPrefixOf (s.drop i) ∧ i + pat.length ≤ s.length := by
  intro s
  induction s with
  | nil =>
      intro i h
      rw [findSubstr] at h
      by_cases hp : pat.isPrefixOf ([] : List Char) = true
      · rw [if_pos hp] at h
        injection h with h'
        subst h'
        have hpat : pat = [] := by
          cases pat with
          | nil => rfl
          | cons c cs => simp [List.isPrefixOf] at hp
        subst hpat
        simp [List.isPrefixOf]
      · rw [if_neg hp] at h
        exact absurd h (by simp)
  | cons c rest ih =>
      intro i h
      rw [findSubstr] at h
      by_cases hp : pat.isPrefixOf (c :: rest) = true
      · rw [if_pos hp] at h
        injection h with h'
        subst h'
        refine ⟨by simpa using hp, ?_⟩
        have hpref := List.isPrefixOf_iff_prefix.mp hp
        have := hpref.length_le
        simpa using this
      · rw [if_neg hp] at h
        cases hfind : findSubstr pat rest with
        | none => rw [hfind] at h; simp at h
        | some i' =>
            rw [hfind] at h
            simp only [Option.map_some'] at h
            injection h with h'
            subst h'
            have h2 := ih i' hfind
            refine ⟨by simpa using h2.1, ?_⟩
            have := h2.2
            simp only [List.length_cons]
            omega

theorem substFuel_succ_none (openT closeT : List Char) (f : Nat) (s : List Char)
    (h : findSubstr openT s = none) :
    substFuel openT closeT (f + 1) s = s := by
  simp [substFuel, h]

theorem substFuel_succ_some_none (openT closeT : List Char) (f : Nat)
    (s : List Char) (i : Nat)
    (h1 : findSubstr openT s = some i)
    (h2 : findSubstr closeT (s.drop (i + openT.length)) = none) :
    substFuel openT closeT (f + 1) s = s := by
  simp [substFuel, h1, h2]

theorem substFuel_succ_some_some (openT closeT : List Char) (f : Nat)
    (s : List Char) (i j : Nat)
    (h1 : findSubstr openT s = some i)
    (h2 : findSubstr closeT (s.drop (i + openT.length)) = some j) :
    substFuel openT closeT (f + 1) s =
      s.take i ++ [' '] ++
        substFuel openT closeT f (s.drop (i + openT.length + j + closeT.length)) := by
  simp [substFuel, h1, h2]

theorem substFuel_fuel_irrel (openT closeT : List Char) (ho : openT ≠ []) :
    ∀ (f₁ : Nat), ∀ (f₂ : Nat) (s : List Char), s.length < f₁ → s.length < f₂ →
      substFuel openT closeT f₁ s = substFuel openT closeT f₂ s := by
  intro f₁
  induction f₁ with
  | zero => intro f₂ s h1 h2; omega
  | succ n ih =>
      intro f₂ s h1 h2
      cases f₂ with
      | zero => omega
      | succ m =>
          cases hopen : findSubstr openT s with
          | none =>
              rw [substFuel_succ_none openT closeT n s hopen,
                substFuel_succ_none openT closeT m s hopen]
          | some i =>
              cases hclose : findSubstr closeT (s.drop (i + openT.length)) with
              | none =>
                  rw [substFuel_succ_some_none openT closeT n s i hopen hclose,
                    substFuel_succ_some_none openT closeT m s i hopen hclose]
              | some j =>
                  rw [substFuel_succ_some_some openT closeT n s i j hopen hclose,
                    substFuel_succ_some_some openT closeT m s i j hopen hclose]
                  have hob2 := (findSubstr_some openT s i hopen).2
                  have hcb2 := (findSubstr_some closeT _ j hclose).2
                  rw [List.length_drop] at hcb2
                  have holen : 1 ≤ openT.length := by
                    cases openT with
                    | nil => exact absurd rfl ho
                    | cons a as => simp
                  have hdlen :
                      (s.drop (i + openT.length + j + closeT.length)).length
                        = s.length - (i + openT.length + j + closeT.length) := by
                    simp [List.length_drop]
                  rw [ih m _ (by omega) (by omega)]

theorem reSub_no_open (openT closeT s : List Char)
    (h : findSubstr openT s = none) : reSub openT closeT s = s := by
  simp [reSub, substFuel, h]

theorem reSub_no_close (openT closeT s : List Char) (i : Nat)
    (h1 : findSubstr openT s = some i)
    (h2 : findSubstr closeT (s.drop (i + openT.length)) = none) :
    reSub openT closeT s = s := by
  simp [reSub, substFuel, h1, h2]

theorem reSub_step (openT closeT : List Char) (ho : openT ≠ []) (s : List Char)
    (i j : Nat)
    (h1 : findSubstr openT s = some i)
    (h2 : findSubstr closeT (s.drop (i + openT.length)) = some j) :
    reSub openT closeT s =
      s.take i ++ [' '] ++
        reSub openT closeT (s.drop (i + openT.length + j + closeT.length)) := by
  have hob2 := (findSubstr_some openT s i h1).2
  have hcb2 := (findSubstr_some closeT _ j h2).2
  rw [List.length_drop] at hcb2
  have holen : 1 ≤ openT.length := by
    cases openT with
    | nil => exact absurd rfl ho
    | cons a as => simp
  have hdlen : (s.drop (i + openT.length + j + closeT.length)).length
      = s.length - (i + openT.length + j + closeT.length) := by
    simp [List.length_drop]
  show substFuel openT closeT (s.length + 1) s = _
  rw [substFuel_succ_some_some openT closeT s.length s i j h1 h2]
  rw [substFuel_fuel_irrel openT closeT ho s.length
    ((s.drop (i + openT.length + j + closeT.length)).length + 1)
    (s.drop (i + openT.length + j + closeT.length)) (by omega) (by omega)]
  rfl

theorem hTag_mem (N : Nat) (h1 : 1 ≤ N) (h6 : N ≤ 6) :
    hTag N ∈ headlineTags := by
  interval_cases N <;> decide

theorem levelOfTag_hTag (N : Nat) (h1 : 1 ≤ N) (h6 : N ≤ 6) :
    levelOfTag (hTag N) = N - 1 := by
  interval_cases N <;> decide

/-! ### The claims -/

/-- C1: for every rendered markup tree, with heading extraction
requested, every `start_idx` in the heading list returned by
`_extract_text_and_headlines` satisfies
`0 ≤ start_idx ≤ content.length`, and the `start_idx` values are
non-decreasing in list order. -/
theorem claim1_start_idx_valid_and_monotone (soup : List MarkupNode) :
    (∀ r ∈ (_extract_text_and_headlines soup).2,
        0 ≤ r.start_idx ∧
          r.start_idx ≤ (_extract_text_and_headlines soup).1.length) ∧
      List.Chain' (fun a b => a.start_idx ≤ b.start_idx)
        (_extract_text_and_headlines soup).2 := by
  rw [extract_eq]
  constructor
  · intro r hr
    have h := headlinesFrom_bounds (preorderList soup) "" r hr
    refine ⟨Nat.zero_le _, ?_⟩
    have h2 := h.2
    simpa using h2
  · exact headlinesFrom_chain (preorderList soup) ""

/-- C1 witness: the record for `Title` in the demonstration soup has a
valid `start_idx`. -/
theorem claim1_witness :
    0 ≤ (⟨"Title", 0, 0⟩ : HeadingRecord).start_idx ∧
      (⟨"Title", 0, 0⟩ : HeadingRecord).start_idx ≤
        (_extract_text_and_headlines demoSoup).1.length :=
  (claim1_start_idx_valid_and_monotone demoSoup).1 ⟨"Title", 0, 0⟩ (by decide)

/-- C2: when the flattener loop body processes a heading element with
tag `hN` (N in 1..6), the heading record it appends has
`level = N - 1`. -/
theorem claim2_level_of_hN (N : Nat) (h1 : 1 ≤ N) (h6 : N ≤ 6)
    (t : String) (hs : List HeadingRecord) (cs : List MarkupNode) :
    step (t, hs) (.element (hTag N) cs)
      = (t, hs ++ [⟨getTextList cs, t.length, N - 1⟩]) := by
  simp only [step]
  rw [if_pos (hTag_mem N h1 h6), levelOfTag_hTag N h1 h6]
  simp [getText]

/-- C2 witness: an `h4` element yields level `3`. -/
theorem claim2_witness :
    step ("ab", []) (.element (hTag 4) [.textLeaf "Q"])
      = ("ab", [] ++ [⟨getTextList [.textLeaf "Q"], "ab".length, 4 - 1⟩]) :=
  claim2_level_of_hN 4 (by norm_num) (by norm_num) "ab" [] [.textLeaf "Q"]

/-- C4: the text accumulator returned by the heading-aware flattener
equals the direct whole-tree text extraction `soup.get_text()` used
when heading extraction is not requested. -/
theorem claim4_flattener_text_eq_get_text (soup : List MarkupNode) :
    (_extract_text_and_headlines soup).1 = soupGetText soup := by
  rw [extract_eq]
  exact textOfFlat_preorderList soup

/-- C7: an empty tree flattens to `("", [])`, and a heading element
with no text content still produces a record, with empty `headline`
and `start_idx` equal to the current text length. -/
theorem claim7_empty_tree_and_textless_heading :
    _extract_text_and_headlines [] = ("", []) ∧
      ∀ (t : String) (hs : List HeadingRecord) (tag : String)
        (cs : List MarkupNode), tag ∈ headlineTags → getTextList cs = "" →
          step (t, hs) (.element tag cs)
            = (t, hs ++ [⟨"", t.length, levelOfTag tag⟩]) := by
  constructor
  · rfl
  · intro t hs tag cs htag hemp
    simp only [step]
    rw [if_pos htag]
    simp [getText, hemp]

/-- C7 witness: a childless `h3` after two characters of text is still
recorded, with empty headline and `start_idx = 2`. -/
theorem claim7_witness :
    step ("xy", []) (.element "h3" [])
      = ("xy", [] ++ [⟨"", "xy".length, levelOfTag "h3"⟩]) :=
  claim7_empty_tree_and_textless_heading.2 "xy" [] "h3" [] (by decide) rfl

/-- C9: every heading record points at its own text: the slice of the
returned content starting at `start_idx` with the headline's length is
the headline itself. -/
theorem claim9_headline_begins_at_start_idx (soup : List MarkupNode) :
    ∀ r ∈ (_extract_text_and_headlines soup).2,
      (((_extract_text_and_headlines soup).1).data.drop r.start_idx).take
          r.headline.data.length
        = r.headline.data := by
  intro r hr
  rw [extract_eq] at hr
  have h := headline_substr_preorderList soup "" "" r hr
  rw [extract_eq]
  show ((textOfFlat (preorderList soup)).data.drop r.start_idx).take
      r.headline.data.length = r.headline.data
  rw [textOfFlat_preorderList]
  have e : ("" ++ getTextList soup ++ "") = getTextList soup := by
    rw [String.empty_append, String.append_empty]
  rw [e] at h
  exact h

/-- C9 witness: in the demonstration soup, the slice at the recorded
offset of the `Title` record is `Title`. -/
theorem claim9_witness :
    (((_extract_text_and_headlines demoSoup).1).data.drop
        (⟨"Title", 0, 0⟩ : HeadingRecord).start_idx).take
        (⟨"Title", 0, 0⟩ : HeadingRecord).headline.data.length
      = (⟨"Title", 0, 0⟩ : HeadingRecord).headline.data :=
  claim9_headline_begins_at_start_idx demoSoup ⟨"Title", 0, 0⟩ (by decide)

/-- C3 counterexample: on `"<pre>x</pre>y</pre>"` the stripper matches
only up to the FIRST closing tag (the `(.*?)` pattern is non-greedy),
leaving `" y</pre>"`; a largest-span replacement up to the LAST closing
tag would instead leave `" "`. -/
theorem claim3_counterexample :
    removeCodeSnippets "<pre>x</pre>y</pre>" = " y</pre>" ∧
      (" y</pre>" : String) ≠ " " := by
  exact ⟨by decide, by decide⟩

/-- C3 (amended): the stripper is exactly the two successive
substitutions (`<pre>` regions first, then `<code>` regions), and each
substitution repeatedly replaces the region from the leftmost opening
tag to the FIRST closing tag of the same kind after it (the smallest
span; any character, newline included, may stand in between) by a
single space, continuing after the replaced region; when no opening
tag occurs, or no closing tag occurs after the leftmost opening tag,
the text is unchanged. -/
theorem claim3_amended_smallest_span :
    (∀ html : String,
        removeCodeSnippets html =
          ⟨reSub "<code>".data "</code>".data
            (reSub "<pre>".data "</pre>".data html.data)⟩) ∧
      ∀ (openT closeT : List Char), openT ≠ [] →
        (∀ s, findSubstr openT s = none → reSub openT closeT s = s) ∧
        (∀ s i, findSubstr openT s = some i →
            findSubstr closeT (s.drop (i + openT.length)) = none →
            reSub openT closeT s = s) ∧
        (∀ a b t : List Char,
            findSubstr openT (a ++ openT ++ b ++ closeT ++ t) = some a.length →
            findSubstr closeT (b ++ closeT ++ t) = some b.length →
            reSub openT closeT (a ++ openT ++ b ++ closeT ++ t)
              = a ++ [' '] ++ reSub openT closeT t) := by
  constructor
  · intro html; rfl
  · intro openT closeT ho
    refine ⟨reSub_no_open openT closeT, ?_, ?_⟩
    · intro s i h1 h2
      exact reSub_no_close openT closeT s i h1 h2
    · intro a b t h1 h2
      have hX : a ++ openT ++ b ++ closeT ++ t
          = a ++ (openT ++ (b ++ (closeT ++ t))) := by
        simp [List.append_assoc]
      rw [hX] at h1 ⊢
      have e1 : (a ++ (openT ++ (b ++ (closeT ++ t)))).drop
          (a.length + openT.length) = b ++ (closeT ++ t) := by
        rw [List.drop_append openT.length, List.drop_left]
      have e2 : findSubstr closeT ((a ++ (openT ++ (b ++ (closeT ++ t)))).drop
          (a.length + openT.length)) = some b.length := by
        rw [e1]
        simpa [List.append_assoc] using h2
      rw [reSub_step openT closeT ho _ a.length b.length h1 e2]
      have e3 : (a ++ (openT ++ (b ++ (closeT ++ t)))).take a.length = a :=
        List.take_left a _
      have hidx : a.length + openT.length + b.length + closeT.length
          = a.length + (openT.length + (b.length + closeT.length)) := by omega
      have e4 : (a ++ (openT ++ (b ++ (closeT ++ t)))).drop
          (a.length + openT.length + b.length + closeT.length) = t := by
        rw [hidx, List.drop_append, List.drop_append, List.drop_append,
          List.drop_left]
      rw [e3, e4]

/-- C3 witness: the amended region property at a concrete input:
`"A<pre>x</pre>B"` becomes `"A B"` in one step of the `<pre>`
substitution. -/
theorem claim3_witness :
    reSub "<pre>".data "</pre>".data
        ("A".data ++ "<pre>".data ++ "x".data ++ "</pre>".data ++ "B".data)
      = "A".data ++ [' '] ++ reSub "<pre>".data "</pre>".data "B".data :=
  (claim3_amended_smallest_span.2 "<pre>".data "</pre>".data (by decide)).2.2
    "A".data "x".data "B".data (by decide) (by decide)

/-- C5: the front-matter merge of `convert` (lines 104-108): with
`add_frontmatter_to_meta` requested and caller metadata present, the
result is the Python `dict.update` of the caller dict with the
front-matter dict — keys present in both take the front-matter value,
keys present in only one mapping keep their value. -/
theorem claim5_frontmatter_overwrites (m metadata : Dict) (k : String) :
    mergeFrontmatter (some m) metadata true = some (dictUpdate m metadata) ∧
      (∀ v, metadata k = some v → dictUpdate m metadata k = some v) ∧
      (metadata k = none → dictUpdate m metadata k = m k) := by
  refine ⟨rfl, ?_, ?_⟩
  · intro v hv
    simp [dictUpdate, hv]
  · intro hv
    simp [dictUpdate, hv]

/-- C5 witness: caller `{"a": 1}` with front-matter `{"a": 2, "b": 3}`
yields `a = 2` and `b = 3`. -/
theorem claim5_witness :
    dictUpdate callerDemo frontmatterDemo "a" = some (.num 2) ∧
      dictUpdate callerDemo frontmatterDemo "b" = some (.num 3) :=
  ⟨(claim5_frontmatter_overwrites callerDemo frontmatterDemo "a").2.1
      (.num 2) rfl,
    (claim5_frontmatter_overwrites callerDemo frontmatterDemo "b").2.1
      (.num 3) rfl⟩

/-- C6: the metadata of the converted document always maps
`"filename"` to the source file's base name, whatever the caller
metadata, the front-matter and the option flags were. -/
theorem claim6_filename_always_set (fmParse : String → Dict × String)
    (mdRender : String → String) (parseHtml : String → List MarkupNode)
    (file_path : FPath) (fileText : String) (opts : ConvertOptions)
    (meta : Option Dict) :
    (convertCore fmParse mdRender parseHtml file_path fileText opts meta).2
        "filename" = some (.str file_path.name) := by
  obtain ⟨rcs, eh, afm⟩ := opts
  cases eh <;> cases afm <;> cases meta <;>
    simp [convertCore, mergeFrontmatter, dictInsert]

/-- C8: conversion is deterministic: two runs of the pure conversion
core on the same file text with the same options, metadata and
collaborators yield identical content and identical metadata (hence
identical heading lists). -/
theorem claim8_deterministic (fmParse : String → Dict × String)
    (mdRender : String → String) (parseHtml : String → List MarkupNode)
    (file_path : FPath) (fileText : String) (opts : ConvertOptions)
    (meta : Option Dict) (r₁ r₂ : String × Dict)
    (h1 : r₁ = convertCore fmParse mdRender parseHtml file_path fileText opts meta)
    (h2 : r₂ = convertCore fmParse mdRender parseHtml file_path fileText opts meta) :
    r₁.1 = r₂.1 ∧ r₁.2 = r₂.2 := by
  subst h1
  subst h2
  exact ⟨rfl, rfl⟩

/-- C8 witness: two runs on the demonstration input coincide. -/
theorem claim8_witness :
    (convertCore demoFmParse demoRender demoParse ⟨["doc.md"]⟩ "body"
        ⟨true, false, false⟩ none).1
      = (convertCore demoFmParse demoRender demoParse ⟨["doc.md"]⟩ "body"
        ⟨true, false, false⟩ none).1 ∧
    (convertCore demoFmParse demoRender demoParse ⟨["doc.md"]⟩ "body"
        ⟨true, false, false⟩ none).2
      = (convertCore demoFmParse demoRender demoParse ⟨["doc.md"]⟩ "body"
        ⟨true, false, false⟩ none).2 :=
  claim8_deterministic demoFmParse demoRender demoParse ⟨["doc.md"]⟩ "body"
    ⟨true, false, false⟩ none _ _ rfl rfl

/-- C10: caller-supplied metadata entries other than `"filename"`,
other than `"headlines"` when heading extraction is requested, and
other than keys also present in the front-matter when the front-matter
merge is requested, appear unchanged in the returned document's
metadata. -/
theorem claim10_caller_meta_preserved (fmParse : String → Dict × String)
    (mdRender : String → String) (parseHtml : String → List MarkupNode)
    (file_path : FPath) (fileText : String) (opts : ConvertOptions)
    (m : Dict) (k : String)
    (hk1 : k ≠ "filename")
    (hk2 : opts.extract_headlines = true → k ≠ "headlines")
    (hk3 : opts.add_frontmatter_to_meta = true → (fmParse fileText).1 k = none) :
    (convertCore fmParse mdRender parseHtml file_path fileText opts
        (some m)).2 k = m k := by
  obtain ⟨rcs, eh, afm⟩ := opts
  cases eh <;> cases afm <;>
    simp_all [convertCore, mergeFrontmatter, dictInsert, dictUpdate]

/-- C10 witness: with all options on, the caller key `"z"` (absent
from the front-matter) keeps its value. -/
theorem claim10_witness :
    (convertCore demoFmParse demoRender demoParse ⟨["doc.md"]⟩ "body"
        ⟨true, true, true⟩ (some callerDemo)).2 "z" = callerDemo "z" :=
  claim10_caller_meta_preserved demoFmParse demoRender demoParse ⟨["doc.md"]⟩
    "body" ⟨true, true, true⟩ callerDemo "z" (by decide) (fun _ => by decide)
    (fun _ => rfl)

end MarkdownConv
